import Mathlib

set_option autoImplicit false

/-!
Verification of the undo-capable file-operation engine of MoCommander
(`src/main.py`: `ActionType`, `UndoAction`, `UndoManager`; `src/core/file_ops.py`:
`FileOperations`).

The embedding models the filesystem as a finite association list from absolute
paths (lists of components) to nodes (a regular file with its content, or a
directory).  The backup directory (`self.backup_dir`, a fixed side directory
under the temporary area) is modelled separately as an association list from
backup names to backed-up trees; the manager is the only code touching it.
The `shutil` primitives used by the source are modelled on this map with their
relevant success/failure behaviour:

* `shutil.copytree(src, dst)` fails when `dst` already exists, and fails when
  `src` does not exist; otherwise it copies the whole subtree.
* `shutil.copy2(src, dst)` fails when `src` does not exist or is a directory,
  and when `dst` is an existing directory; an existing destination file is
  overwritten.
* `shutil.rmtree` removes a whole subtree, `Path.unlink` one file,
  `Path.rmdir` an empty directory only.

A raised exception is modelled as `none` / an error branch; the Python code
under verification catches every exception, so no exception escapes.
-/

namespace MoCommander

/-- A filesystem path, as its list of components from the root. -/
abbrev Path := List String

/-- The Python `path.name`: the final path component (empty for the root). -/
def pname (p : Path) : String := p.getLast?.getD ("")

/-- A filesystem node: a regular file with its byte content, or a directory. -/
inductive Node where
  | file (content : String)
  | dir
deriving DecidableEq, Repr

/-- The filesystem outside the backup directory: a finite association list from
paths to nodes.  A well-formed filesystem (see `wfFS`) has no duplicate paths
and no entries strictly below a file. -/
abbrev FS := List (Path × Node)

/-- Lookup of the node at a path (the first matching entry). -/
def lookupFS (fs : FS) (p : Path) : Option Node :=
  (fs.find? (fun e => e.1 == p)).map (fun e => e.2)

/-- The Python `path.exists()`. -/
def existsFS (fs : FS) (p : Path) : Bool := (lookupFS fs p).isSome

/-- The Python `path.is_dir()`. -/
def isDirFS (fs : FS) (p : Path) : Bool := lookupFS fs p == some Node.dir

/-- Remove the single entry at a path (the Python `path.unlink()` / `path.rmdir()`
effect on the map). -/
def removeEntryFS (fs : FS) (p : Path) : FS := fs.filter (fun e => !(e.1 == p))

/-- Remove the whole subtree rooted at a path (the `shutil.rmtree` effect). -/
def removeTreeFS (fs : FS) (p : Path) : FS := fs.filter (fun e => !(p.isPrefixOf e.1))

/-- Write a node at a path, replacing any previous entry there. -/
def setFS (fs : FS) (p : Path) (n : Node) : FS := (p, n) :: removeEntryFS fs p

/-- All entries at or below `p`, re-rooted as paths relative to `p`
(the source side of `shutil.copytree`). -/
def snapshotFS (fs : FS) (p : Path) : List (Path × Node) :=
  fs.filterMap (fun e => if p.isPrefixOf e.1 then some (e.1.drop p.length, e.2) else none)

/-- Graft a snapshot (relative entries) at path `p` (the destination side of
`shutil.copytree`). -/
def graftFS (fs : FS) (p : Path) (entries : List (Path × Node)) : FS :=
  entries.map (fun e => (p ++ e.1, e.2)) ++ fs

/-- Whether some entry lies strictly below `p`: directory non-emptiness. -/
def hasChildFS (fs : FS) (p : Path) : Bool :=
  fs.any (fun e => p.isPrefixOf e.1 && !(e.1 == p))

/-- The `shutil.move` / `Path.rename` effect: relocate the subtree at `src`
to `dst`. -/
def moveTreeFS (fs : FS) (src dst : Path) : FS :=
  graftFS (removeTreeFS fs src) dst (snapshotFS fs src)

/-- Well-formedness of a filesystem: no duplicate paths, and nothing lies
strictly below a regular file. -/
def wfFS (fs : FS) : Prop :=
  (fs.map (fun e => e.1)).Nodup ∧
  ∀ e ∈ fs, e.2 ≠ Node.dir → ∀ e2 ∈ fs, e.1.isPrefixOf e2.1 = true → e2.1 = e.1

instance (fs : FS) : Decidable (wfFS fs) := by
  unfold wfFS; infer_instance

/-- The backup file name built by `record_delete`:
`backup_name = f"{len(self.history)}_{path.name}"`.  The decimal index contains
no underscore, so the string is uniquely decodable into the pair
(index, original name); we model the name as that pair. -/
structure BackupName where
  idx : Nat
  orig : String
deriving DecidableEq, Repr

/-- One stored backup: the copied entries relative to the backup root
(`[]` is the backed-up item itself). -/
abbrev Backup := List (Path × Node)

/-- The contents of the backup directory `self.backup_dir`: an association list
from backup names to stored backups. -/
abbrev Store := List (BackupName × Backup)

/-- Lookup of a stored backup (the Python `backup_path.exists()` succeeds iff
this is `some`). -/
def lookupStore (st : Store) (n : BackupName) : Option Backup :=
  (st.find? (fun e => e.1 == n)).map (fun e => e.2)

/-- Remove a backup from the store (`shutil.rmtree` / `unlink` of a backup). -/
def removeStore (st : Store) (n : BackupName) : Store :=
  st.filter (fun e => !(e.1 == n))

/-- Write a backup into the store, replacing any previous one of that name. -/
def setStore (st : Store) (n : BackupName) (b : Backup) : Store :=
  (n, b) :: removeStore st n

/-- The root node of a stored backup (the Python `backup_path.is_dir()` checks
whether this is `some Node.dir`). -/
def storeRoot (b : Backup) : Option Node :=
  (b.find? (fun e => e.1 == ([] : Path))).map (fun e => e.2)

/-- The `ActionType` enumeration of `main.py`. -/
inductive ActionType where
  | copy
  | move
  | delete
  | mkdir
  | rename
deriving DecidableEq, Repr

/-- The `UndoAction` dataclass of `main.py`. -/
structure UndoAction where
  action_type : ActionType
  source : Path
  destination : Option Path := none
  backup_path : Option BackupName := none
deriving DecidableEq, Repr

/-- The state the `UndoManager` operates on: its own fields `history` and
`max_history`, plus the two pieces of the outside world it reads and writes,
namely the contents of its backup directory (`store`) and the rest of the
filesystem (`fs`).  A freshly constructed manager has `history = []` and
`store = []`. -/
structure MState where
  history : List UndoAction
  max_history : Nat
  store : Store
  fs : FS
deriving DecidableEq, Repr

/-- The backup name chosen by `record_delete`:
`f"{len(self.history)}_{path.name}"`. -/
def newBackupName (s : MState) (path : Path) : BackupName :=
  { idx := s.history.length, orig := pname path }

/-- The `UndoManager._add_action` method: append to history; if the bound is
exceeded, pop the oldest entry and, if it has a backup that still exists,
delete that backup from the store. -/
def _add_action (s : MState) (action : UndoAction) : MState :=
  if (s.history ++ [action]).length > s.max_history then
    { s with
      history := (s.history ++ [action]).tail,
      store :=
        match (s.history ++ [action]).head? with
        | some oldest =>
            match oldest.backup_path with
            | some n => removeStore s.store n
            | none => s.store
        | none => s.store }
  else
    { s with history := s.history ++ [action] }

/-- The `UndoManager.record_copy` method. -/
def record_copy (s : MState) (source destination : Path) : MState :=
  _add_action s { action_type := ActionType.copy, source := source,
                  destination := some destination }

/-- The `UndoManager.record_move` method. -/
def record_move (s : MState) (source destination : Path) : MState :=
  _add_action s { action_type := ActionType.move, source := source,
                  destination := some destination }

/-- The backup-copy step of `record_delete`: `shutil.copytree(path, backup_path)`
for a directory, `shutil.copy2(path, backup_path)` for a file; `none` models a
raised exception.  `copytree` raises when the source does not exist or the
destination already exists.  `copy2` raises when the source does not exist; an
existing destination file is overwritten, and when the destination is an
existing directory the file is copied into it, at `backup_path / path.name`
(raising only if that inner target is itself a directory). -/
def backup_copy (fs : FS) (st : Store) (nm : BackupName) (path : Path) :
    Option Store :=
  match lookupFS fs path with
  | none => none
  | some Node.dir =>
      match lookupStore st nm with
      | some _ => none
      | none => some (setStore st nm (snapshotFS fs path))
  | some (Node.file c) =>
      match lookupStore st nm with
      | some b =>
          match storeRoot b with
          | some Node.dir =>
              if lookupFS b [pname path] == some Node.dir then none
              else some (setStore st nm (setFS b [pname path] (Node.file c)))
          | some (Node.file _) => some (setStore st nm [(([] : Path), Node.file c)])
          | none => some (setStore st nm [(([] : Path), Node.file c)])
      | none => some (setStore st nm [(([] : Path), Node.file c)])

/-- The `UndoManager.record_delete` method: back the item up first; only on
backup success append a Delete action and return `true`. -/
def record_delete (s : MState) (path : Path) : MState × Bool :=
  match backup_copy s.fs s.store (newBackupName s path) path with
  | none => (s, false)
  | some st =>
      (_add_action { s with store := st }
        { action_type := ActionType.delete, source := path,
          backup_path := some (newBackupName s path) }, true)

/-- The `UndoManager.record_mkdir` method. -/
def record_mkdir (s : MState) (path : Path) : MState :=
  _add_action s { action_type := ActionType.mkdir, source := path }

/-- The `UndoManager.record_rename` method. -/
def record_rename (s : MState) (old_path new_path : Path) : MState :=
  _add_action s { action_type := ActionType.rename, source := old_path,
                  destination := some new_path }

/-- The `UndoManager.can_undo` method. -/
def can_undo (s : MState) : Bool := decide (0 < s.history.length)

/-- Message helper for the `except Exception` path of `undo`; the detail
abstracts the rendered Python exception. -/
def undoFailed (detail : String) : String := "Undo failed: " ++ detail

/-- The body of `UndoManager.undo` after the pop: `s` is the state whose
history has already lost its tail entry, `action` the popped entry.  Each
branch mirrors the corresponding `elif` of the source. -/
def undo_core (s : MState) (action : UndoAction) : MState × Bool × String :=
  match action.action_type with
  | ActionType.copy =>
      match action.destination with
      | none => (s, false, undoFailed ("AttributeError"))
      | some d =>
          if existsFS s.fs d then
            if isDirFS s.fs d then
              ({ s with fs := removeTreeFS s.fs d }, true,
               "Undid copy: removed " ++ pname d)
            else
              ({ s with fs := removeEntryFS s.fs d }, true,
               "Undid copy: removed " ++ pname d)
          else (s, true, "Undid copy: removed " ++ pname d)
  | ActionType.move =>
      match action.destination with
      | none => (s, false, undoFailed ("AttributeError"))
      | some d =>
          if existsFS s.fs d then
            ({ s with fs := moveTreeFS s.fs d action.source }, true,
             "Undid move: restored " ++ pname action.source)
          else (s, false, "Cannot undo: " ++ pname d ++ " no longer exists")
  | ActionType.delete =>
      match action.backup_path with
      | none => (s, false, "Cannot undo: backup not found")
      | some n =>
          match lookupStore s.store n with
          | none => (s, false, "Cannot undo: backup not found")
          | some b =>
              match storeRoot b with
              | some Node.dir =>
                  if existsFS s.fs action.source then
                    (s, false, undoFailed ("FileExistsError"))
                  else
                    ({ s with fs := graftFS s.fs action.source b,
                              store := removeStore s.store n }, true,
                     "Undid delete: restored " ++ pname action.source)
              | some (Node.file c) =>
                  if isDirFS s.fs action.source then
                    (s, false, undoFailed ("IsADirectoryError"))
                  else
                    ({ s with fs := setFS s.fs action.source (Node.file c),
                              store := removeStore s.store n }, true,
                     "Undid delete: restored " ++ pname action.source)
              | none => (s, false, undoFailed ("FileNotFoundError"))
  | ActionType.mkdir =>
      if existsFS s.fs action.source && isDirFS s.fs action.source then
        if hasChildFS s.fs action.source then
          (s, false, "Cannot undo: " ++ pname action.source ++ " is not empty")
        else
          ({ s with fs := removeEntryFS s.fs action.source }, true,
           "Undid mkdir: removed " ++ pname action.source)
      else (s, false, "Cannot undo: " ++ pname action.source ++ " no longer exists")
  | ActionType.rename =>
      match action.destination with
      | none => (s, false, undoFailed ("AttributeError"))
      | some d =>
          if existsFS s.fs d then
            ({ s with fs := moveTreeFS s.fs d action.source }, true,
             "Undid rename: restored " ++ pname action.source)
          else (s, false, "Cannot undo: " ++ pname d ++ " no longer exists")

/-- The `UndoManager.undo` method: pop the tail entry first (unconditionally),
then reverse it by kind. -/
def undo (s : MState) : MState × Bool × String :=
  match s.history.getLast? with
  | none => (s, false, "Nothing to undo")
  | some action => undo_core { s with history := s.history.dropLast } action

/-- The `UndoManager.cleanup` method: remove the whole backup directory,
ignoring errors; the in-memory fields are untouched. -/
def cleanup (s : MState) : MState := { s with store := [] }

/-- The `FileOperations.delete_file` primitive: `rmtree` a directory, `unlink`
a file; `false` models the caught exception for a nonexistent path. -/
def delete_file (fs : FS) (path : Path) : FS × Bool :=
  if isDirFS fs path then (removeTreeFS fs path, true)
  else if existsFS fs path then (removeEntryFS fs path, true)
  else (fs, false)

/-- One call into the `UndoManager` interface, for reasoning about reachable
states: the five recording methods, `undo`, and `cleanup`.  Return values are
discarded; only the state evolution matters here. -/
inductive Op where
  | opCopy (source destination : Path)
  | opMove (source destination : Path)
  | opDelete (path : Path)
  | opMkdir (path : Path)
  | opRename (old_path new_path : Path)
  | opUndo
  | opCleanup
deriving DecidableEq, Repr

/-- The state transition of one interface call. -/
def step (s : MState) (o : Op) : MState :=
  match o with
  | Op.opCopy a b => record_copy s a b
  | Op.opMove a b => record_move s a b
  | Op.opDelete p => (record_delete s p).1
  | Op.opMkdir p => record_mkdir s p
  | Op.opRename a b => record_rename s a b
  | Op.opUndo => (undo s).1
  | Op.opCleanup => cleanup s

/-- Run a sequence of interface calls. -/
def run (s : MState) (ops : List Op) : MState := ops.foldl step s

/-- Whether an interface call is one of the five recording methods. -/
def isRecording : Op → Bool
  | Op.opUndo => false
  | Op.opCleanup => false
  | _ => true

/-- Fold `_add_action` over a list of actions: the effect on the manager of a
sequence of recording calls, one appended action per call. -/
def addActions (s : MState) (acts : List UndoAction) : MState :=
  acts.foldl _add_action s

/-- Remove from a store the backups owned by a list of actions, in order
(the cleanup performed when those actions are evicted). -/
def rmBackups (st : Store) (acts : List UndoAction) : Store :=
  acts.foldl
    (fun st a =>
      match a.backup_path with
      | some n => removeStore st n
      | none => st)
    st

/-- The names present in the backup directory. -/
def storeKeys (st : Store) : List BackupName := st.map (fun e => e.1)

/-- The backup names referenced by the Delete entries of a history. -/
def deleteNames (h : List UndoAction) : List BackupName :=
  h.filterMap (fun a => a.backup_path)

/-- The number of Delete-kind entries in a history. -/
def deleteCount (h : List UndoAction) : Nat :=
  h.countP (fun a => a.action_type == ActionType.delete)

/-- Concrete inputs for witnesses and counterexamples: a filesystem holding a
single regular file named a. -/
def fsFileA : FS := [((["a"] : Path), Node.file ("contents of a"))]

/-- A filesystem holding one directory d with one file inside it. -/
def fsDirD : FS :=
  [((["d"] : Path), Node.dir), ((["d", "f"] : Path), Node.file ("inner"))]

/-- A filesystem holding one empty directory e. -/
def fsEmptyDirE : FS := [((["e"] : Path), Node.dir)]

/-- A fresh manager with the given bound over the given filesystem. -/
def mkMState (m : Nat) (fs : FS) : MState :=
  { history := [], max_history := m, store := [], fs := fs }

/-- Counterexample trace for the backup-name claim: bound 2, three successive
`record_delete` calls on the same file name. -/
def c4State : MState := run (mkMState 2 fsFileA) [Op.opDelete (["a"]), Op.opDelete (["a"]), Op.opDelete (["a"])]

/-- Counterexample trace for the backup-leak claim: `record_delete` of a
directory that is never actually deleted, followed by `undo` (whose `copytree`
restore step then raises because the source still exists). -/
def c5State : MState := run (mkMState 2 fsDirD) [Op.opDelete (["d"]), Op.opUndo]

/-- The state after the orchestrating layer performs the recorded deletion
through `FileOperations.delete_file`. -/
def after_delete (s : MState) (p : Path) : MState :=
  { s with fs := (delete_file s.fs p).1 }

/-- Position invariant of histories reachable without eviction: a Delete entry
sitting at position `i` carries backup index `i`. -/
abbrev IdxInv (s : MState) : Prop :=
  ∀ (i : Nat) (b : UndoAction), s.history[i]? = some b →
    ∀ n : BackupName, b.backup_path = some n → n.idx = i

/-- Storage invariant maintained by the recording operations: backup names in
the store are distinct, every one of them is referenced by some Delete entry
still in history, and only Delete entries carry backups. -/
abbrev StoreInv (s : MState) : Prop :=
  (storeKeys s.store).Nodup ∧
  (∀ n ∈ storeKeys s.store, n ∈ deleteNames s.history) ∧
  (∀ a ∈ s.history, a.backup_path.isSome = true → a.action_type = ActionType.delete)

/-- Witness inputs: a recorded mkdir action and a state carrying it. -/
def wMkdirDirD : UndoAction := { action_type := ActionType.mkdir, source := ["d"] }

def wMkdirE : UndoAction := { action_type := ActionType.mkdir, source := ["e"] }

def wCopyX : UndoAction :=
  { action_type := ActionType.copy, source := ["s"], destination := some ["x"] }

def wState1 : MState :=
  { history := [wMkdirE], max_history := 5, store := [], fs := fsEmptyDirE }

def wState8 : MState :=
  { history := [wMkdirDirD], max_history := 5, store := [], fs := fsDirD }

def wState10 : MState :=
  { history := [wCopyX], max_history := 5, store := [], fs := fsFileA }

def wActA : UndoAction := { action_type := ActionType.copy, source := ["p"], destination := some ["q"] }

def wActB : UndoAction := { action_type := ActionType.move, source := ["r"], destination := some ["t"] }

/-- Witness input for the delete round trip: the state right after a
successful `record_delete` of the file a on a fresh manager. -/
def w1s1 : MState := (record_delete (mkMState 2 fsFileA) (["a"])).1

/-- Counterexample inputs for the delete round trip: bound 2, two files and a
directory named a (holding a file g). -/
def c1FS : FS :=
  [((["f1"] : Path), Node.file ("F1")), ((["f2"] : Path), Node.file ("F2")),
   ((["a"] : Path), Node.dir), ((["a", "g"] : Path), Node.file ("G"))]

/-- Recording the deletion of the two files and then of the directory a: the
eviction at the third call shifts positions, leaving the directory backup in
storage under the name 2_a while the history length is back at 2, so the next
chosen name collides with it (the C4 scenario, with a directory). -/
def c1Setup : MState :=
  run (mkMState 2 c1FS)
    [Op.opDelete (["f1"]), Op.opDelete (["f2"]), Op.opDelete (["a"])]

/-- The caller then performs the recorded deletions and the user creates a
fresh regular file named a, to be deleted next. -/
def c1State : MState := { c1Setup with fs := [((["a"] : Path), Node.file ("NEW"))] }

/-- The state after `record_delete` of that file: `shutil.copy2` finds the
directory backup 2_a at the chosen name and copies the file into it, so the
recording succeeds with `backup_path` still naming the directory. -/
def c1s1 : MState := (record_delete c1State (["a"])).1

/-! ### Helper lemmas about paths and association lists -/

theorem isPrefixOf_append_self (p r : Path) : p.isPrefixOf (p ++ r) = true := by
  induction p with
  | nil => simp [List.isPrefixOf]
  | cons a as ih => simp [List.isPrefixOf, ih]

theorem isPrefixOf_refl (p : Path) : p.isPrefixOf p = true := by
  have h := isPrefixOf_append_self p []
  rwa [List.append_nil] at h

theorem eq_append_drop_of_isPrefixOf (p : Path) :
    ∀ q : Path, p.isPrefixOf q = true → q = p ++ q.drop p.length := by
  induction p with
  | nil => intro q _; rfl
  | cons a as ih =>
      intro q h
      cases q with
      | nil => simp [List.isPrefixOf] at h
      | cons b bs =>
          simp only [List.isPrefixOf, Bool.and_eq_true, beq_iff_eq] at h
          obtain ⟨rfl, h2⟩ := h
          simpa using congrArg (List.cons a) (ih bs h2)

theorem find?_filter_none {α : Type} (l : List α) (f g : α → Bool)
    (h : ∀ e ∈ l, f e = true → g e = false) : (l.filter g).find? f = none := by
  induction l with
  | nil => rfl
  | cons e rest ih =>
      have ih2 := ih (fun x hx hfx => h x (List.mem_cons_of_mem e hx) hfx)
      by_cases hg : g e = true
      · have hf : f e = false := by
          cases hfe : f e
          · rfl
          · rw [h e (List.mem_cons_self e rest) hfe] at hg; exact absurd hg (by simp)
        simp [List.filter_cons, hg, List.find?_cons, hf, ih2]
      · simp only [Bool.not_eq_true] at hg
        simp [List.filter_cons, hg, ih2]

theorem find?_filter_all {α : Type} (l : List α) (f g : α → Bool)
    (h : ∀ e ∈ l, f e = true → g e = true) : (l.filter g).find? f = l.find? f := by
  induction l with
  | nil => rfl
  | cons e rest ih =>
      have ih2 := ih (fun x hx hfx => h x (List.mem_cons_of_mem e hx) hfx)
      by_cases hg : g e = true
      · cases hfe : f e
        · simp [List.filter_cons, hg, List.find?_cons, hfe, ih2]
        · simp [List.filter_cons, hg, List.find?_cons, hfe]
      · have hf : f e = false := by
          cases hfe : f e
          · rfl
          · exact absurd (h e (List.mem_cons_self e rest) hfe) hg
        simp only [Bool.not_eq_true] at hg
        simp [List.filter_cons, hg, List.find?_cons, hf, ih2]

/-! ### Lookup lemmas for the filesystem and the backup store -/

theorem lookupFS_removeTreeFS_self (fs : FS) (p : Path) :
    lookupFS (removeTreeFS fs p) p = none := by
  unfold lookupFS removeTreeFS
  rw [find?_filter_none]
  · rfl
  · intro e _ hf
    have : e.1 = p := by simpa using hf
    simp [this, isPrefixOf_refl]

theorem lookupFS_removeEntryFS_self (fs : FS) (p : Path) :
    lookupFS (removeEntryFS fs p) p = none := by
  unfold lookupFS removeEntryFS
  rw [find?_filter_none]
  · rfl
  · intro e _ hf
    simpa using hf

theorem lookupFS_setFS_self (fs : FS) (p : Path) (n : Node) :
    lookupFS (setFS fs p n) p = some n := by
  simp [lookupFS, setFS, List.find?_cons]

theorem lookupStore_setStore_self (st : Store) (n : BackupName) (b : Backup) :
    lookupStore (setStore st n b) n = some b := by
  simp [lookupStore, setStore, List.find?_cons]

theorem lookupStore_removeStore_self (st : Store) (n : BackupName) :
    lookupStore (removeStore st n) n = none := by
  unfold lookupStore removeStore
  rw [find?_filter_none]
  · rfl
  · intro e _ hf
    simpa using hf

theorem lookupStore_removeStore_ne (st : Store) (n m : BackupName) (h : n ≠ m) :
    lookupStore (removeStore st m) n = lookupStore st n := by
  unfold lookupStore removeStore
  rw [find?_filter_all]
  intro e _ hf
  have he : e.1 = n := by simpa using hf
  simp [he, h]

theorem lookupStore_setStore_ne (st : Store) (n m : BackupName) (b : Backup)
    (h : n ≠ m) : lookupStore (setStore st m b) n = lookupStore st n := by
  unfold setStore
  have hmn : m ≠ n := fun hc => h hc.symm
  simp only [lookupStore, List.find?_cons]
  have : ((m, b).1 == n) = false := by simpa using hmn
  rw [this]
  exact lookupStore_removeStore_ne st n m h

/-! ### Snapshot and graft lemmas -/

theorem snapshotFS_eq_nil (fs : FS) (p : Path)
    (h : ∀ e ∈ fs, p.isPrefixOf e.1 = false) : snapshotFS fs p = [] := by
  unfold snapshotFS
  rw [List.filterMap_eq_nil_iff]
  intro e he
  simp [h e he]

theorem snapshotFS_removeTreeFS_self (fs : FS) (p : Path) :
    snapshotFS (removeTreeFS fs p) p = [] := by
  apply snapshotFS_eq_nil
  intro e he
  have := List.of_mem_filter he
  simpa using this

theorem snapshotFS_graftFS_self (fs : FS) (p : Path) (b : Backup)
    (h : snapshotFS fs p = []) : snapshotFS (graftFS fs p b) p = b := by
  unfold graftFS
  unfold snapshotFS at h ⊢
  rw [List.filterMap_append, h, List.append_nil, List.filterMap_map]
  have : ∀ e : Path × Node,
      (fun x : Path × Node =>
        if p.isPrefixOf x.1 then some (x.1.drop p.length, x.2) else none)
        ((fun e : Path × Node => (p ++ e.1, e.2)) e) = some e := by
    intro e
    simp only [isPrefixOf_append_self, if_pos]
    rw [List.drop_left]
  calc b.filterMap _ = b.filterMap some := by
        apply List.filterMap_congr
        intro e _
        exact this e
    _ = b := by simp

theorem storeRoot_snapshotFS (fs : FS) (p : Path) :
    storeRoot (snapshotFS fs p) = lookupFS fs p := by
  induction fs with
  | nil => rfl
  | cons e rest ih =>
      by_cases hpre : p.isPrefixOf e.1 = true
      · by_cases heq : e.1 = p
        · have hdrop : e.1.drop p.length = ([] : Path) := by
            rw [heq, List.drop_length]
          simp [snapshotFS, storeRoot, lookupFS, hpre, List.filterMap_cons,
            List.find?_cons, hdrop, heq]
        · have hdrop : (e.1.drop p.length == ([] : Path)) = false := by
            have happ := eq_append_drop_of_isPrefixOf p e.1 hpre
            cases hd : e.1.drop p.length with
            | nil => rw [hd, List.append_nil] at happ; exact absurd happ heq
            | cons x xs => simp
          have hne : (e.1 == p) = false := by simpa using heq
          simp only [snapshotFS, List.filterMap_cons, hpre, if_pos] at ih ⊢
          simp only [storeRoot, lookupFS, List.find?_cons, hdrop, hne]
          exact ih
      · have hne : (e.1 == p) = false := by
          have : e.1 ≠ p := by
            intro hc
            rw [hc, isPrefixOf_refl] at hpre
            exact hpre rfl
          simpa using this
        have hpre2 : p.isPrefixOf e.1 = false := by
          cases hp : p.isPrefixOf e.1
          · rfl
          · exact absurd hp hpre
        simp only [snapshotFS, List.filterMap_cons, hpre2] at ih ⊢
        simp only [lookupFS, List.find?_cons, hne]
        exact ih

/-! ### Structural lemmas about the manager operations -/

theorem add_action_of_lt (s : MState) (a : UndoAction)
    (h : s.history.length < s.max_history) :
    _add_action s a = { s with history := s.history ++ [a] } := by
  unfold _add_action
  rw [if_neg]
  simp only [List.length_append, List.length_cons, List.length_nil, gt_iff_lt, not_lt]
  omega

theorem add_action_of_ge_cons (s : MState) (a x : UndoAction)
    (rest : List UndoAction) (hx : s.history = x :: rest)
    (h : s.max_history ≤ s.history.length) :
    _add_action s a =
      { s with
        history := rest ++ [a],
        store :=
          match x.backup_path with
          | some n => removeStore s.store n
          | none => s.store } := by
  have hlen : s.history.length = rest.length + 1 := by rw [hx]; rfl
  unfold _add_action
  rw [hx, if_pos]
  · rfl
  · simp only [List.length_append, List.length_cons, List.length_nil, gt_iff_lt]
    omega

theorem add_action_max (s : MState) (a : UndoAction) :
    (_add_action s a).max_history = s.max_history := by
  unfold _add_action
  split <;> rfl

theorem add_action_fs (s : MState) (a : UndoAction) :
    (_add_action s a).fs = s.fs := by
  unfold _add_action
  split <;> rfl

theorem add_action_getLast (s : MState) (a : UndoAction) (h : 0 < s.max_history) :
    (_add_action s a).history.getLast? = some a := by
  unfold _add_action
  split
  · rename_i hgt
    cases hh : s.history with
    | nil =>
        rw [hh] at hgt
        simp at hgt
        omega
    | cons x rest =>
        simp [List.getLast?_concat]
  · simp [List.getLast?_concat]

theorem undo_core_history (t : MState) (a : UndoAction) :
    (undo_core t a).1.history = t.history := by
  unfold undo_core
  rcases a with ⟨ty, src, dst, bp⟩
  cases ty <;> dsimp only <;>
    [skip; skip; skip; (split <;> [split <;> rfl; rfl]); skip]
  all_goals first
  | (cases dst <;> dsimp only <;> repeat (first | rfl | split <;> try rfl))
  | (cases bp <;> dsimp only <;> repeat (first | rfl | split <;> try rfl))

theorem undo_core_max (t : MState) (a : UndoAction) :
    (undo_core t a).1.max_history = t.max_history := by
  unfold undo_core
  rcases a with ⟨ty, src, dst, bp⟩
  cases ty <;> dsimp only <;>
    [skip; skip; skip; (split <;> [split <;> rfl; rfl]); skip]
  all_goals first
  | (cases dst <;> dsimp only <;> repeat (first | rfl | split <;> try rfl))
  | (cases bp <;> dsimp only <;> repeat (first | rfl | split <;> try rfl))

theorem undo_of_nil (s : MState) (h : s.history = []) :
    undo s = (s, false, "Nothing to undo") := by
  unfold undo
  rw [h]
  rfl

theorem undo_history_of_ne_nil (s : MState) (h : s.history ≠ []) :
    (undo s).1.history = s.history.dropLast := by
  unfold undo
  cases hl : s.history.getLast? with
  | none =>
      exact absurd (List.getLast?_eq_none_iff.mp hl) h
  | some a =>
      exact undo_core_history _ a

theorem undo_max (s : MState) :
    (undo s).1.max_history = s.max_history := by
  unfold undo
  cases hl : s.history.getLast? with
  | none => rfl
  | some a => exact undo_core_max _ a

theorem record_delete_max (s : MState) (p : Path) :
    (record_delete s p).1.max_history = s.max_history := by
  unfold record_delete
  split
  · rfl
  · exact add_action_max _ _

theorem step_max (s : MState) (o : Op) :
    (step s o).max_history = s.max_history := by
  cases o with
  | opCopy a b => exact add_action_max _ _
  | opMove a b => exact add_action_max _ _
  | opDelete p => exact record_delete_max s p
  | opMkdir p => exact add_action_max _ _
  | opRename a b => exact add_action_max _ _
  | opUndo => exact undo_max s
  | opCleanup => rfl

theorem run_max (s : MState) (ops : List Op) :
    (run s ops).max_history = s.max_history := by
  induction ops generalizing s with
  | nil => rfl
  | cons o rest ih =>
      show (run (step s o) rest).max_history = s.max_history
      rw [ih (step s o), step_max]

theorem run_append_one (s : MState) (ops : List Op) (o : Op) :
    run s (ops ++ [o]) = step (run s ops) o := by
  unfold run
  rw [List.foldl_append]
  rfl

theorem addActions_append_one (s : MState) (acts : List UndoAction) (a : UndoAction) :
    addActions s (acts ++ [a]) = _add_action (addActions s acts) a := by
  unfold addActions
  rw [List.foldl_append]
  rfl

theorem addActions_max (s : MState) (acts : List UndoAction) :
    (addActions s acts).max_history = s.max_history := by
  induction acts generalizing s with
  | nil => rfl
  | cons a rest ih =>
      show (addActions (_add_action s a) rest).max_history = s.max_history
      rw [ih, add_action_max]

theorem rmBackups_append_one (st : Store) (acts : List UndoAction) (a : UndoAction) :
    rmBackups st (acts ++ [a]) =
      (match a.backup_path with
       | some n => removeStore (rmBackups st acts) n
       | none => rmBackups st acts) := by
  unfold rmBackups
  rw [List.foldl_append]
  rfl

/-! ### Claim theorems -/

/-- C9: `cleanup()` affects only the on-disk backup storage: afterwards the
backup directory is empty, while the in-memory history is unchanged, so
`can_undo()` returns the same value as before. -/
theorem cleanup_touches_only_store (s : MState) :
    (cleanup s).store = [] ∧ (cleanup s).history = s.history ∧
    can_undo (cleanup s) = can_undo s :=
  ⟨rfl, rfl, rfl⟩

/-- C6: on a non-empty history, a single `undo()` removes exactly one entry,
the tail, regardless of which branch the reversal takes and of its outcome;
the popped action is never re-inserted. -/
theorem undo_pops_tail_always (s : MState) (h : s.history ≠ []) :
    (undo s).1.history = s.history.dropLast ∧
    (undo s).1.history.length = s.history.length - 1 := by
  refine ⟨undo_history_of_ne_nil s h, ?_⟩
  rw [undo_history_of_ne_nil s h, List.length_dropLast]

theorem undo_pops_tail_always_witness :
    (undo wState1).1.history = wState1.history.dropLast ∧
    (undo wState1).1.history.length = wState1.history.length - 1 :=
  undo_pops_tail_always wState1 (by decide)

/-- C2: undo is LIFO: with empty history and bound at least 3, after recording
actions A1, A2, A3 the history is [A1, A2, A3]; three successive `undo()`
calls pop A3, then A2, then A1, and a fourth `undo()` reports failure with
"Nothing to undo" while leaving the state (hence the empty history)
unchanged. -/
theorem undo_lifo (s : MState) (a1 a2 a3 : UndoAction)
    (h0 : s.history = []) (h3 : 3 ≤ s.max_history) :
    (addActions s [a1, a2, a3]).history = [a1, a2, a3] ∧
    ((undo (addActions s [a1, a2, a3])).1.history = [a1, a2]) ∧
    ((undo (undo (addActions s [a1, a2, a3])).1).1.history = [a1]) ∧
    ((undo (undo (undo (addActions s [a1, a2, a3])).1).1).1.history = []) ∧
    (undo (undo (undo (undo (addActions s [a1, a2, a3])).1).1).1 =
      ((undo (undo (undo (addActions s [a1, a2, a3])).1).1).1, false,
       "Nothing to undo")) := by
  have l0 : s.history.length = 0 := by rw [h0]; rfl
  have h1 : (addActions s [a1, a2, a3]).history = [a1, a2, a3] := by
    show (_add_action (_add_action (_add_action s a1) a2) a3).history = [a1, a2, a3]
    rw [add_action_of_lt s a1 (by omega)]
    rw [add_action_of_lt _ a2 (by simp [h0]; omega)]
    rw [add_action_of_lt _ a3 (by simp [h0]; omega)]
    simp [h0]
  have h2 : (undo (addActions s [a1, a2, a3])).1.history = [a1, a2] := by
    rw [undo_history_of_ne_nil _ (by rw [h1]; simp), h1]
    rfl
  have h3a : (undo (undo (addActions s [a1, a2, a3])).1).1.history = [a1] := by
    rw [undo_history_of_ne_nil _ (by rw [h2]; simp), h2]
    rfl
  have h4 : (undo (undo (undo (addActions s [a1, a2, a3])).1).1).1.history = [] := by
    rw [undo_history_of_ne_nil _ (by rw [h3a]; simp), h3a]
    rfl
  exact ⟨h1, h2, h3a, h4, undo_of_nil _ h4⟩

theorem undo_lifo_witness :
    (addActions (mkMState 5 fsFileA) [wActA, wActB, wMkdirE]).history =
      [wActA, wActB, wMkdirE] ∧
    ((undo (addActions (mkMState 5 fsFileA) [wActA, wActB, wMkdirE])).1.history =
      [wActA, wActB]) ∧
    ((undo (undo (addActions (mkMState 5 fsFileA) [wActA, wActB, wMkdirE])).1).1.history =
      [wActA]) ∧
    ((undo (undo (undo (addActions (mkMState 5 fsFileA) [wActA, wActB, wMkdirE])).1).1).1.history =
      []) ∧
    (undo (undo (undo (undo (addActions (mkMState 5 fsFileA) [wActA, wActB, wMkdirE])).1).1).1 =
      ((undo (undo (undo (addActions (mkMState 5 fsFileA) [wActA, wActB, wMkdirE])).1).1).1,
       false, "Nothing to undo")) :=
  undo_lifo (mkMState 5 fsFileA) wActA wActB wMkdirE rfl (by decide)

/-- C10: a Copy entry at the tail whose destination no longer exists is still
undone with success and the removal message, while Move and Rename entries in
the same situation fail with a "no longer exists" message. -/
theorem undo_copy_missing_dest_succeeds (s : MState) (a : UndoAction) (d : Path)
    (hlast : s.history.getLast? = some a) (hdest : a.destination = some d)
    (hex : existsFS s.fs d = false) :
    (a.action_type = ActionType.copy →
       undo s = ({ s with history := s.history.dropLast }, true,
                 "Undid copy: removed " ++ pname d)) ∧
    (a.action_type = ActionType.move →
       undo s = ({ s with history := s.history.dropLast }, false,
                 "Cannot undo: " ++ pname d ++ " no longer exists")) ∧
    (a.action_type = ActionType.rename →
       undo s = ({ s with history := s.history.dropLast }, false,
                 "Cannot undo: " ++ pname d ++ " no longer exists")) := by
  have hu : undo s = undo_core { s with history := s.history.dropLast } a := by
    unfold undo
    rw [hlast]
  rw [hu]
  refine ⟨fun hty => ?_, fun hty => ?_, fun hty => ?_⟩ <;>
    · unfold undo_core
      rw [hty]
      dsimp only
      rw [hdest]
      dsimp only
      simp [hex]

theorem undo_copy_missing_dest_succeeds_witness :
    undo wState10 = ({ wState10 with history := wState10.history.dropLast }, true,
      "Undid copy: removed " ++ pname (["x"])) :=
  (undo_copy_missing_dest_succeeds wState10 wCopyX (["x"]) rfl rfl (by decide)).1 rfl

/-- C8: undoing a MakeDirectory entry at the tail never destroys data: an
existing non-empty directory makes `undo()` fail with a "not empty" message
and leaves the filesystem untouched; a missing path or a non-directory fails
with a "no longer exists" message; only an existing empty directory is
removed, with success reported. -/
theorem undo_mkdir_never_destroys (s : MState) (a : UndoAction)
    (hlast : s.history.getLast? = some a) (hty : a.action_type = ActionType.mkdir) :
    (existsFS s.fs a.source = true → isDirFS s.fs a.source = true →
       hasChildFS s.fs a.source = true →
       undo s = ({ s with history := s.history.dropLast }, false,
                 "Cannot undo: " ++ pname a.source ++ " is not empty")) ∧
    (existsFS s.fs a.source = false ∨ isDirFS s.fs a.source = false →
       undo s = ({ s with history := s.history.dropLast }, false,
                 "Cannot undo: " ++ pname a.source ++ " no longer exists")) ∧
    (existsFS s.fs a.source = true → isDirFS s.fs a.source = true →
       hasChildFS s.fs a.source = false →
       undo s = ({ s with
                     history := s.history.dropLast,
                     fs := removeEntryFS s.fs a.source }, true,
                 "Undid mkdir: removed " ++ pname a.source)) := by
  have hu : undo s = undo_core { s with history := s.history.dropLast } a := by
    unfold undo
    rw [hlast]
  rw [hu]
  unfold undo_core
  rw [hty]
  dsimp only
  refine ⟨fun h1 h2 h3 => ?_, fun h12 => ?_, fun h1 h2 h3 => ?_⟩
  · simp [h1, h2, h3]
  · rcases h12 with h1 | h2
    · simp [h1]
    · simp [h2]
  · simp [h1, h2, h3]

theorem undo_mkdir_never_destroys_witness :
    undo wState8 = ({ wState8 with history := wState8.history.dropLast }, false,
      "Cannot undo: " ++ pname ((["d"] : Path)) ++ " is not empty") :=
  (undo_mkdir_never_destroys wState8 wMkdirDirD rfl rfl).1 (by decide) (by decide)
    (by decide)

/-- C7: `record_delete` is atomic with respect to the history: it returns true
exactly when the backup-copy step succeeds; in that case the state is the
backup written to the store followed by `_add_action` of the
`{Delete, path, backupPath}` entry; on backup failure the whole state is left
exactly as before and nothing is recorded. -/
theorem record_delete_atomic (s : MState) (p : Path) :
    ((record_delete s p).2 = true ↔
      (backup_copy s.fs s.store (newBackupName s p) p).isSome = true) ∧
    ((record_delete s p).2 = false → (record_delete s p).1 = s) ∧
    (∀ st, backup_copy s.fs s.store (newBackupName s p) p = some st →
      record_delete s p =
        (_add_action { s with store := st }
          { action_type := ActionType.delete, source := p, destination := none,
            backup_path := some (newBackupName s p) }, true)) := by
  refine ⟨?_, ?_, ?_⟩
  · unfold record_delete
    cases h : backup_copy s.fs s.store (newBackupName s p) p <;> simp [h]
  · unfold record_delete
    cases h : backup_copy s.fs s.store (newBackupName s p) p <;> simp [h]
  · intro st hst
    unfold record_delete
    rw [hst]

theorem record_delete_atomic_witness :
    record_delete (mkMState 2 fsFileA) (["a"]) =
      (_add_action
        { mkMState 2 fsFileA with
            store :=
              setStore (mkMState 2 fsFileA).store
                (newBackupName (mkMState 2 fsFileA) (["a"]))
                [(([] : Path), Node.file ("contents of a"))] }
        { action_type := ActionType.delete, source := ["a"], destination := none,
          backup_path := some (newBackupName (mkMState 2 fsFileA) (["a"])) },
       true) :=
  (record_delete_atomic (mkMState 2 fsFileA) (["a"])).2.2
    (setStore (mkMState 2 fsFileA).store (newBackupName (mkMState 2 fsFileA) (["a"]))
      [(([] : Path), Node.file ("contents of a"))]) rfl

/-- Complete description of a recording sequence through `_add_action`: from an
empty history, the history is always the suffix of the recorded actions that
fits the bound, and the store has lost exactly the backups of the evicted
prefix, in eviction order. -/
theorem addActions_spec (s : MState) (hM : 0 < s.max_history) (h0 : s.history = []) :
    ∀ acts : List UndoAction,
      (addActions s acts).history = acts.drop (acts.length - s.max_history) ∧
      (addActions s acts).store =
        rmBackups s.store (acts.take (acts.length - s.max_history)) := by
  intro acts
  induction acts using List.reverseRecOn with
  | nil => simp [addActions, h0, rmBackups]
  | append_singleton l a ih =>
      obtain ⟨ih1, ih2⟩ := ih
      rw [addActions_append_one]
      have htmax : (addActions s l).max_history = s.max_history := addActions_max s l
      have hlen : (addActions s l).history.length =
          l.length - (l.length - s.max_history) := by
        rw [ih1, List.length_drop]
      by_cases hc : l.length < s.max_history
      · have hlt : (addActions s l).history.length < (addActions s l).max_history := by
          rw [htmax, hlen]; omega
        rw [add_action_of_lt _ a hlt]
        have hz : l.length - s.max_history = 0 := by omega
        have hz2 : (l ++ [a]).length - s.max_history = 0 := by
          simp only [List.length_append, List.length_cons, List.length_nil]; omega
        refine ⟨?_, ?_⟩
        · show (addActions s l).history ++ [a] = (l ++ [a]).drop ((l ++ [a]).length - s.max_history)
          rw [ih1, hz, hz2]
          simp
        · show (addActions s l).store =
            rmBackups s.store ((l ++ [a]).take ((l ++ [a]).length - s.max_history))
          rw [ih2, hz, hz2]
          simp [rmBackups]
      · have hge : (addActions s l).max_history ≤ (addActions s l).history.length := by
          rw [htmax, hlen]; omega
        have hne : (addActions s l).history ≠ [] := by
          rw [ih1]
          intro hnil
          have hl := congrArg List.length hnil
          rw [List.length_drop] at hl
          simp only [List.length_nil] at hl
          omega
        obtain ⟨x, rest, hxr⟩ : ∃ x rest, (addActions s l).history = x :: rest := by
          cases hh : (addActions s l).history with
          | nil => exact absurd hh hne
          | cons y ys => exact ⟨y, ys, rfl⟩
        rw [add_action_of_ge_cons _ a x rest hxr hge]
        have hdx : l.drop (l.length - s.max_history) = x :: rest := by rw [← ih1, hxr]
        have hx : l[l.length - s.max_history]? = some x := by
          rw [← List.head?_drop, hdx]; rfl
        have hlen2 : (l ++ [a]).length - s.max_history = (l.length - s.max_history) + 1 := by
          simp only [List.length_append, List.length_cons, List.length_nil]; omega
        have hrest : l.drop ((l.length - s.max_history) + 1) = rest := by
          have hd := congrArg (List.drop 1) hdx
          rw [List.drop_drop] at hd
          simpa using hd
        refine ⟨?_, ?_⟩
        · show rest ++ [a] = (l ++ [a]).drop ((l ++ [a]).length - s.max_history)
          rw [hlen2, List.drop_append_eq_append_drop]
          have h9 : (l.length - s.max_history) + 1 - l.length = 0 := by omega
          rw [h9, hrest]
          simp
        · show (match x.backup_path with
                | some n => removeStore (addActions s l).store n
                | none => (addActions s l).store) =
            rmBackups s.store ((l ++ [a]).take ((l ++ [a]).length - s.max_history))
          rw [hlen2, List.take_append_of_le_length (by omega), List.take_succ, hx,
            Option.toList_some, rmBackups_append_one, ih2]

/-- C3: for any sequence of recorded actions on a manager with empty history
and bound M, the invariant that the history never exceeds M holds after every
recording; once more than M actions have been recorded the history holds
exactly the M most recent ones in recording order, and each evicted action has
its backup (if any) deleted from the side storage at the moment of its
eviction. -/
theorem history_bounded_eviction (s : MState) (acts : List UndoAction)
    (h0 : s.history = []) (hpos : 0 < s.max_history)
    (hlt : s.max_history < acts.length) :
    (∀ i, (addActions s (acts.take i)).history.length ≤ s.max_history) ∧
    (addActions s acts).history = acts.drop (acts.length - s.max_history) ∧
    (addActions s acts).history.length = s.max_history ∧
    (∀ i, i ≤ acts.length →
      (addActions s (acts.take i)).store =
        rmBackups s.store (acts.take (i - s.max_history))) := by
  refine ⟨?_, ?_, ?_, ?_⟩
  · intro i
    have h := (addActions_spec s hpos h0 (acts.take i)).1
    have := congrArg List.length h
    rw [List.length_drop] at this
    omega
  · exact (addActions_spec s hpos h0 acts).1
  · have h := (addActions_spec s hpos h0 acts).1
    have := congrArg List.length h
    rw [List.length_drop] at this
    omega
  · intro i hi
    have h := (addActions_spec s hpos h0 (acts.take i)).2
    rw [h, List.length_take, List.take_take]
    have h1 : min i acts.length = i := by omega
    rw [h1]
    have h2 : min (i - s.max_history) i = i - s.max_history := by
      apply Nat.min_eq_left
      omega
    rw [h2]

theorem history_bounded_eviction_witness :
    (addActions (mkMState 1 fsFileA) [wActA, wActB]).history =
      [wActA, wActB].drop ([wActA, wActB].length - (mkMState 1 fsFileA).max_history) ∧
    (addActions (mkMState 1 fsFileA) [wActA, wActB]).history.length =
      (mkMState 1 fsFileA).max_history :=
  ⟨(history_bounded_eviction (mkMState 1 fsFileA) [wActA, wActB] rfl (by decide)
      (by decide)).2.1,
   (history_bounded_eviction (mkMState 1 fsFileA) [wActA, wActB] rfl (by decide)
      (by decide)).2.2.1⟩

/-- Recording while the history is strictly below the bound preserves the
position invariant, provided the appended action respects it at the new
tail position. -/
theorem add_action_IdxInv (s : MState) (a : UndoAction)
    (hlen : s.history.length < s.max_history) (hinv : IdxInv s)
    (hbp : ∀ n, a.backup_path = some n → n.idx = s.history.length) :
    IdxInv (_add_action s a) := by
  rw [add_action_of_lt s a hlen]
  intro i b hsome n hn
  rw [List.getElem?_append] at hsome
  by_cases hi : i < s.history.length
  · rw [if_pos hi] at hsome
    exact hinv i b hsome n hn
  · rw [if_neg hi] at hsome
    by_cases hieq : i = s.history.length
    · subst hieq
      rw [Nat.sub_self] at hsome
      simp only [List.getElem?_cons_zero, Option.some.injEq] at hsome
      subst hsome
      exact hbp n hn
    · rw [List.getElem?_eq_none] at hsome
      · cases hsome
      · simp only [List.length_cons, List.length_nil]
        omega

/-- Undo preserves the position invariant: popping the tail leaves every other
position unchanged. -/
theorem undo_IdxInv (s : MState) (hinv : IdxInv s) : IdxInv (undo s).1 := by
  by_cases h : s.history = []
  · rw [undo_of_nil s h]
    exact hinv
  · intro i b hsome n hn
    rw [undo_history_of_ne_nil s h, List.dropLast_eq_take, List.getElem?_take] at hsome
    by_cases hi : i < s.history.length - 1
    · rw [if_pos hi] at hsome
      exact hinv i b hsome n hn
    · rw [if_neg hi] at hsome
      cases hsome

/-- Every interface call made while the history is strictly below the bound
preserves the position invariant. -/
theorem step_IdxInv (s : MState) (o : Op)
    (hlen : s.history.length < s.max_history) (hinv : IdxInv s) :
    IdxInv (step s o) := by
  cases o with
  | opCopy a b => exact add_action_IdxInv s _ hlen hinv (fun n hn => by cases hn)
  | opMove a b => exact add_action_IdxInv s _ hlen hinv (fun n hn => by cases hn)
  | opMkdir p => exact add_action_IdxInv s _ hlen hinv (fun n hn => by cases hn)
  | opRename a b => exact add_action_IdxInv s _ hlen hinv (fun n hn => by cases hn)
  | opUndo => exact undo_IdxInv s hinv
  | opCleanup => exact hinv
  | opDelete p =>
      show IdxInv (record_delete s p).1
      unfold record_delete
      cases hb : backup_copy s.fs s.store (newBackupName s p) p with
      | none => exact hinv
      | some st =>
          exact add_action_IdxInv { s with store := st } _ hlen hinv
            (fun n hn => by cases hn; rfl)

/-- A run from an empty history in which no recording ever finds the history
at the bound (so no eviction happens) maintains the position invariant. -/
theorem run_IdxInv (s : MState) (ops : List Op) (h0 : s.history = [])
    (hne : ∀ i, i < ops.length →
      (run s (ops.take i)).history.length < s.max_history) :
    IdxInv (run s ops) := by
  induction ops using List.reverseRecOn with
  | nil =>
      intro i b hsome n hn
      simp only [run, List.foldl_nil, h0] at hsome
      cases hsome
  | append_singleton l o ih =>
      rw [run_append_one]
      apply step_IdxInv
      · rw [run_max]
        have h := hne l.length (by simp)
        rwa [List.take_append_of_le_length (Nat.le_refl _), List.take_length] at h
      · apply ih
        intro i hi
        have h := hne i (by simp only [List.length_append, List.length_cons,
          List.length_nil]; omega)
        rwa [List.take_append_of_le_length (by omega)] at h

/-- C4 counterexample: with bound 2, three `record_delete` calls on the same
file name reach a state where the name `record_delete` would use next — index
`len(history)` plus the original name — equals the backup name of the Delete
entry still at the tail of the history; a fourth `record_delete` then
succeeds by overwriting that live backup, leaving two history entries that
share one backup file. -/
theorem backup_name_collision_cex :
    (c4State.history.map (fun e => e.backup_path) =
      [some { idx := 1, orig := "a" }, some (newBackupName c4State (["a"]))]) ∧
    (c4State.history.any
      (fun e => e.action_type == ActionType.delete &&
        e.backup_path == some (newBackupName c4State (["a"]))) = true) ∧
    ((record_delete c4State (["a"])).2 = true) ∧
    ((record_delete c4State (["a"])).1.history.map (fun e => e.backup_path) =
      [some { idx := 2, orig := "a" }, some { idx := 2, orig := "a" }]) := by
  refine ⟨?_, ?_, ?_, ?_⟩ <;> rfl

/-- C4 amended: as long as no eviction has occurred — every call so far was
made with the history strictly below `max_history` — the backup name derived
from the current history length and the original file name differs from the
backup name referenced by every Delete entry still in history, so no live
backup is overwritten or shared. -/
theorem backup_name_fresh_amended (s : MState) (ops : List Op) (h0 : s.history = [])
    (hne : ∀ i, i < ops.length →
      (run s (ops.take i)).history.length < s.max_history) :
    ∀ p : Path, ∀ e ∈ (run s ops).history,
      e.backup_path ≠ some (newBackupName (run s ops) p) := by
  intro p e he hcontra
  have hinv := run_IdxInv s ops h0 hne
  obtain ⟨i, hi⟩ := List.mem_iff_getElem?.mp he
  have hidx : (run s ops).history.length = i :=
    hinv i e hi (newBackupName (run s ops) p) hcontra
  have hlt := (List.getElem?_eq_some.mp hi).1
  omega

theorem backup_name_fresh_amended_witness :
    ({ action_type := ActionType.delete, source := ["a"], destination := none,
       backup_path := some { idx := 0, orig := "a" } } : UndoAction).backup_path ≠
      some (newBackupName (run (mkMState 2 fsFileA) [Op.opDelete (["a"])]) (["a"])) :=
  backup_name_fresh_amended (mkMState 2 fsFileA) [Op.opDelete (["a"])] rfl
    (fun i hi => by
      have h0 : i = 0 := Nat.lt_one_iff.mp hi
      subst h0
      decide)
    (["a"])
    { action_type := ActionType.delete, source := ["a"], destination := none,
      backup_path := some { idx := 0, orig := "a" } }
    (by decide)

/-! ### Store bookkeeping lemmas for the backup-bound invariant -/

theorem storeKeys_removeStore (st : Store) (m : BackupName) :
    storeKeys (removeStore st m) = (storeKeys st).filter (fun k => !(k == m)) := by
  unfold storeKeys removeStore
  rw [List.filter_map]
  rfl

theorem mem_storeKeys_removeStore {st : Store} {n m : BackupName} :
    n ∈ storeKeys (removeStore st m) ↔ (n ∈ storeKeys st ∧ n ≠ m) := by
  rw [storeKeys_removeStore, List.mem_filter]
  simp

theorem nodup_storeKeys_removeStore (st : Store) (m : BackupName)
    (h : (storeKeys st).Nodup) : (storeKeys (removeStore st m)).Nodup := by
  rw [storeKeys_removeStore]
  exact h.filter _

theorem storeKeys_setStore (st : Store) (n : BackupName) (b : Backup) :
    storeKeys (setStore st n b) = n :: storeKeys (removeStore st n) := rfl

theorem nodup_storeKeys_setStore (st : Store) (n : BackupName) (b : Backup)
    (h : (storeKeys st).Nodup) : (storeKeys (setStore st n b)).Nodup := by
  rw [storeKeys_setStore]
  refine List.nodup_cons.mpr ⟨?_, nodup_storeKeys_removeStore st n h⟩
  intro hmem
  exact (mem_storeKeys_removeStore.mp hmem).2 rfl

theorem deleteNames_append (h1 h2 : List UndoAction) :
    deleteNames (h1 ++ h2) = deleteNames h1 ++ deleteNames h2 :=
  List.filterMap_append h1 h2 _

theorem deleteNames_cons (x : UndoAction) (h : List UndoAction) :
    deleteNames (x :: h) =
      (match x.backup_path with
       | some n => n :: deleteNames h
       | none => deleteNames h) := by
  unfold deleteNames
  rw [List.filterMap_cons]
  cases x.backup_path <;> rfl

theorem deleteNames_length_le (h : List UndoAction)
    (hdel : ∀ a ∈ h, a.backup_path.isSome = true →
      a.action_type = ActionType.delete) :
    (deleteNames h).length ≤ deleteCount h := by
  induction h with
  | nil => simp [deleteNames, deleteCount]
  | cons a rest ih =>
      have ih2 := ih (fun x hx hxs => hdel x (List.mem_cons_of_mem a hx) hxs)
      rw [deleteNames_cons]
      unfold deleteCount at ih2 ⊢
      rw [List.countP_cons]
      cases hbp : a.backup_path with
      | none =>
          dsimp only
          omega
      | some n =>
          have hd : a.action_type = ActionType.delete :=
            hdel a (List.mem_cons_self a rest) (by rw [hbp]; rfl)
          have hif : (a.action_type == ActionType.delete) = true := by
            rw [hd]; rfl
          rw [hif, if_pos rfl]
          simp only [List.length_cons]
          omega

theorem storeInv_length_le (s : MState) (hinv : StoreInv s) :
    s.store.length ≤ deleteCount s.history := by
  obtain ⟨hnd, hsub, hdel⟩ := hinv
  have h1 : s.store.length = (storeKeys s.store).length := by
    unfold storeKeys
    rw [List.length_map]
  have hcard : (storeKeys s.store).toFinset.card = (storeKeys s.store).length :=
    List.toFinset_card_of_nodup hnd
  have hsubf : (storeKeys s.store).toFinset ⊆ (deleteNames s.history).toFinset := by
    intro x hx
    rw [List.mem_toFinset] at hx ⊢
    exact hsub x hx
  have h2 := Finset.card_le_card hsubf
  have h3 := List.toFinset_card_le (deleteNames s.history)
  have h4 := deleteNames_length_le s.history hdel
  omega

theorem add_action_of_ge_nil (s : MState) (a : UndoAction) (hx : s.history = [])
    (h : s.max_history = 0) :
    _add_action s a =
      { s with
        history := [],
        store :=
          match a.backup_path with
          | some n => removeStore s.store n
          | none => s.store } := by
  unfold _add_action
  rw [hx, if_pos (by simp [h])]
  rfl

/-- Appending an action through `_add_action` preserves the storage invariant,
as long as every store name is referenced by the extended history and the
extended history ties backups to Delete entries. -/
theorem add_action_StoreInv (s : MState) (a : UndoAction)
    (hkeys : (storeKeys s.store).Nodup)
    (hsub : ∀ n ∈ storeKeys s.store, n ∈ deleteNames (s.history ++ [a]))
    (hdel : ∀ x ∈ s.history ++ [a], x.backup_path.isSome = true →
      x.action_type = ActionType.delete) :
    StoreInv (_add_action s a) := by
  by_cases hc : s.history.length < s.max_history
  · rw [add_action_of_lt s a hc]
    exact ⟨hkeys, hsub, hdel⟩
  · push_neg at hc
    cases hh : s.history with
    | nil =>
        have hm : s.max_history = 0 := by
          rw [hh] at hc
          simpa using hc
        rw [add_action_of_ge_nil s a hh hm]
        refine ⟨?_, ?_, ?_⟩
        · cases hbx : a.backup_path with
          | some m =>
              simp only [hbx]
              exact nodup_storeKeys_removeStore _ _ hkeys
          | none =>
              simp only [hbx]
              exact hkeys
        · intro n hn
          rw [hh] at hsub
          cases hbx : a.backup_path with
          | some m =>
              rw [hbx] at hn
              obtain ⟨hn1, hn2⟩ := mem_storeKeys_removeStore.mp hn
              have h2 := hsub n hn1
              rw [List.nil_append, deleteNames_cons, hbx] at h2
              simp only [deleteNames] at h2
              simp only [List.filterMap_nil] at h2
              rcases List.mem_cons.mp h2 with h3 | h3
              · exact absurd h3 hn2
              · cases h3
          | none =>
              rw [hbx] at hn
              have h2 := hsub n hn
              rw [List.nil_append, deleteNames_cons, hbx] at h2
              simp only [deleteNames, List.filterMap_nil] at h2
              cases h2
        · intro y hy
          cases hy
    | cons x rest =>
        rw [hh] at hc
        rw [add_action_of_ge_cons s a x rest hh (by rw [hh]; exact hc)]
        have hsub2 : ∀ n ∈ storeKeys s.store,
            n ∈ deleteNames ((x :: rest) ++ [a]) := by
          intro n hn
          have := hsub n hn
          rwa [hh] at this
        have hdel2 : ∀ y ∈ (x :: rest) ++ [a], y.backup_path.isSome = true →
            y.action_type = ActionType.delete := by
          intro y hy hys
          refine hdel y ?_ hys
          rwa [hh]
        refine ⟨?_, ?_, ?_⟩
        · cases hbx : x.backup_path with
          | some m =>
              simp only [hbx]
              exact nodup_storeKeys_removeStore _ _ hkeys
          | none =>
              simp only [hbx]
              exact hkeys
        · intro n hn
          cases hbx : x.backup_path with
          | some m =>
              rw [hbx] at hn
              obtain ⟨hn1, hn2⟩ := mem_storeKeys_removeStore.mp hn
              have h2 := hsub2 n hn1
              rw [List.cons_append, deleteNames_cons, hbx] at h2
              rcases List.mem_cons.mp h2 with h3 | h3
              · exact absurd h3 hn2
              · exact h3
          | none =>
              rw [hbx] at hn
              have h2 := hsub2 n hn
              rwa [List.cons_append, deleteNames_cons, hbx] at h2
        · intro y hy hys
          exact hdel2 y (List.mem_cons_of_mem x hy) hys

theorem backup_copy_shape (fs : FS) (st0 : Store) (nm : BackupName) (p : Path)
    (st : Store) (h : backup_copy fs st0 nm p = some st) :
    ∃ b, st = setStore st0 nm b := by
  unfold backup_copy at h
  split at h
  · exact Option.noConfusion h
  · split at h
    · exact Option.noConfusion h
    · exact ⟨_, (Option.some.inj h).symm⟩
  · split at h
    · split at h
      · split at h
        · exact Option.noConfusion h
        · exact ⟨_, (Option.some.inj h).symm⟩
      · exact ⟨_, (Option.some.inj h).symm⟩
      · exact ⟨_, (Option.some.inj h).symm⟩
    · exact ⟨_, (Option.some.inj h).symm⟩

/-- Each recording call preserves the storage invariant. -/
theorem step_StoreInv (s : MState) (o : Op) (hrec : isRecording o = true)
    (hinv : StoreInv s) : StoreInv (step s o) := by
  obtain ⟨hnd, hsub, hdel⟩ := hinv
  cases o with
  | opUndo => cases hrec
  | opCleanup => cases hrec
  | opCopy a b =>
      apply add_action_StoreInv
      · exact hnd
      · intro n hn
        rw [deleteNames_append]
        exact List.mem_append_left _ (hsub n hn)
      · intro x hx hxs
        rcases List.mem_append.mp hx with h1 | h1
        · exact hdel x h1 hxs
        · rw [List.mem_singleton] at h1
          subst h1
          cases hxs
  | opMove a b =>
      apply add_action_StoreInv
      · exact hnd
      · intro n hn
        rw [deleteNames_append]
        exact List.mem_append_left _ (hsub n hn)
      · intro x hx hxs
        rcases List.mem_append.mp hx with h1 | h1
        · exact hdel x h1 hxs
        · rw [List.mem_singleton] at h1
          subst h1
          cases hxs
  | opMkdir p =>
      apply add_action_StoreInv
      · exact hnd
      · intro n hn
        rw [deleteNames_append]
        exact List.mem_append_left _ (hsub n hn)
      · intro x hx hxs
        rcases List.mem_append.mp hx with h1 | h1
        · exact hdel x h1 hxs
        · rw [List.mem_singleton] at h1
          subst h1
          cases hxs
  | opRename a b =>
      apply add_action_StoreInv
      · exact hnd
      · intro n hn
        rw [deleteNames_append]
        exact List.mem_append_left _ (hsub n hn)
      · intro x hx hxs
        rcases List.mem_append.mp hx with h1 | h1
        · exact hdel x h1 hxs
        · rw [List.mem_singleton] at h1
          subst h1
          cases hxs
  | opDelete p =>
      show StoreInv (record_delete s p).1
      unfold record_delete
      cases hb : backup_copy s.fs s.store (newBackupName s p) p with
      | none => exact ⟨hnd, hsub, hdel⟩
      | some st =>
          obtain ⟨b, rfl⟩ := backup_copy_shape s.fs s.store (newBackupName s p) p st hb
          apply add_action_StoreInv
          · exact nodup_storeKeys_setStore _ _ _ hnd
          · intro n hn
            rw [storeKeys_setStore] at hn
            rcases List.mem_cons.mp hn with h1 | h1
            · subst h1
              rw [deleteNames_append]
              apply List.mem_append_right
              rw [deleteNames_cons]
              exact List.mem_cons_self _ _
            · have h2 := (mem_storeKeys_removeStore.mp h1).1
              rw [deleteNames_append]
              exact List.mem_append_left _ (hsub n h2)
          · intro x hx hxs
            rcases List.mem_append.mp hx with h1 | h1
            · exact hdel x h1 hxs
            · rw [List.mem_singleton] at h1
              subst h1
              rfl

/-- A run of recording calls preserves the storage invariant. -/
theorem run_StoreInv (s : MState) (ops : List Op)
    (hinv : StoreInv s) (hrec : ∀ o ∈ ops, isRecording o = true) :
    StoreInv (run s ops) := by
  induction ops generalizing s with
  | nil => exact hinv
  | cons o rest ih =>
      show StoreInv (run (step s o) rest)
      exact ih (step s o)
        (step_StoreInv s o (hrec o (List.mem_cons_self o rest)) hinv)
        (fun x hx => hrec x (List.mem_cons_of_mem o hx))

/-- C5 counterexample: `record_delete` of an existing directory that the
caller never actually deletes, followed by one `undo`: the `copytree` restore
step raises because the source still exists, the entry is popped anyway, and
its backup stays behind — one backup in storage against zero Delete entries
in history. -/
theorem backup_outlives_entry_cex :
    c5State.store.length = 1 ∧ deleteCount c5State.history = 0 ∧
    ¬ (c5State.store.length ≤ deleteCount c5State.history) :=
  ⟨rfl, rfl, by decide⟩

/-- C5 amended: restricted to recording operations (a Delete undo whose
restore step fails pops the entry but leaks its backup, so undo calls are
excluded), the number of backups in storage never exceeds the number of
Delete entries in history, at every point of the run. -/
theorem backup_bound_recordings_amended (s : MState) (ops : List Op)
    (h0 : s.history = []) (hst : s.store = [])
    (hrec : ∀ o ∈ ops, isRecording o = true) :
    ∀ i : Nat, (run s (ops.take i)).store.length ≤
      deleteCount (run s (ops.take i)).history := by
  intro i
  apply storeInv_length_le
  apply run_StoreInv
  · refine ⟨?_, ?_, ?_⟩
    · rw [hst]
      exact List.nodup_nil
    · intro n hn
      rw [hst] at hn
      cases hn
    · intro a ha
      rw [h0] at ha
      cases ha
  · intro o ho
    exact hrec o ((List.take_sublist i ops).subset ho)

theorem backup_bound_recordings_amended_witness :
    (run (mkMState 2 fsFileA) ([Op.opDelete (["a"])].take 1)).store.length ≤
      deleteCount (run (mkMState 2 fsFileA) ([Op.opDelete (["a"])].take 1)).history :=
  backup_bound_recordings_amended (mkMState 2 fsFileA) [Op.opDelete (["a"])] rfl rfl
    (by decide) 1

/-! ### Helper lemmas for the delete round trip -/

theorem beq_path_false_of_ne {q p : Path} (h : q ≠ p) : (q == p) = false := by
  simpa using h

theorem lookupFS_delete_file_self (fs : FS) (p : Path) :
    lookupFS (delete_file fs p).1 p = none := by
  unfold delete_file
  by_cases h1 : isDirFS fs p = true
  · rw [if_pos h1]
    exact lookupFS_removeTreeFS_self fs p
  · rw [if_neg h1]
    by_cases h2 : existsFS fs p = true
    · rw [if_pos h2]
      exact lookupFS_removeEntryFS_self fs p
    · rw [if_neg h2]
      unfold existsFS at h2
      cases hl : lookupFS fs p with
      | none => rfl
      | some n =>
          rw [hl] at h2
          exact absurd rfl h2

theorem removeEntryFS_idem (fs : FS) (p : Path) :
    removeEntryFS (removeEntryFS fs p) p = removeEntryFS fs p := by
  unfold removeEntryFS
  rw [List.filter_filter]
  apply List.filter_congr
  intro e _
  exact Bool.and_self _

theorem snapshotFS_cons_self (fs : FS) (p : Path) (n : Node) :
    snapshotFS ((p, n) :: fs) p = (([] : Path), n) :: snapshotFS fs p := by
  unfold snapshotFS
  rw [List.filterMap_cons]
  simp only [isPrefixOf_refl, if_true, List.drop_length]

theorem backup_copy_cases (fs : FS) (st0 : Store) (nm : BackupName) (p : Path)
    (st : Store)
    (hroot : ∀ b0, lookupStore st0 nm = some b0 → storeRoot b0 ≠ some Node.dir)
    (h : backup_copy fs st0 nm p = some st) :
    (lookupFS fs p = some Node.dir ∧ st = setStore st0 nm (snapshotFS fs p)) ∨
    (∃ c, lookupFS fs p = some (Node.file c) ∧
      st = setStore st0 nm [(([] : Path), Node.file c)]) := by
  unfold backup_copy at h
  split at h
  · exact Option.noConfusion h
  · rename_i hf
    split at h
    · exact Option.noConfusion h
    · exact Or.inl ⟨hf, (Option.some.inj h).symm⟩
  · rename_i c hf
    split at h
    · rename_i b hl
      split at h
      · rename_i hr
        exact absurd hr (hroot b hl)
      · exact Or.inr ⟨c, hf, (Option.some.inj h).symm⟩
      · exact Or.inr ⟨c, hf, (Option.some.inj h).symm⟩
    · exact Or.inr ⟨c, hf, (Option.some.inj h).symm⟩

theorem add_action_store_cases (s : MState) (a : UndoAction) :
    (_add_action s a).store = s.store ∨
    ∃ m, (_add_action s a).store = removeStore s.store m := by
  unfold _add_action
  split
  · cases hh : (s.history ++ [a]).head? with
    | none => exact Or.inl rfl
    | some oldest =>
        change (match oldest.backup_path with
                | some n => removeStore s.store n
                | none => s.store) = s.store ∨
          ∃ m, (match oldest.backup_path with
                | some n => removeStore s.store n
                | none => s.store) = removeStore s.store m
        cases oldest.backup_path with
        | none => exact Or.inl rfl
        | some m => exact Or.inr ⟨m, rfl⟩
  · exact Or.inl rfl

theorem snapshotFS_of_file (fs : FS) (p : Path) (c : String)
    (hnd : (fs.map (fun e => e.1)).Nodup)
    (honly : ∀ e2 ∈ fs, p.isPrefixOf e2.1 = true → e2.1 = p)
    (hc : lookupFS fs p = some (Node.file c)) :
    snapshotFS fs p = [(([] : Path), Node.file c)] := by
  induction fs with
  | nil => cases hc
  | cons e rest ih =>
      rw [List.map_cons, List.nodup_cons] at hnd
      obtain ⟨hnotin, hnd2⟩ := hnd
      by_cases heq : (e.1 == p) = true
      · have he1 : e.1 = p := by simpa using heq
        have he2 : e.2 = Node.file c := by
          unfold lookupFS at hc
          rw [List.find?_cons_of_pos rest
            (show (fun q : Path × Node => q.1 == p) e = true from heq)] at hc
          exact Option.some.inj hc
        have hrest : snapshotFS rest p = [] := by
          apply snapshotFS_eq_nil
          intro e2 he2m
          cases hpre : p.isPrefixOf e2.1 with
          | false => rfl
          | true =>
              exfalso
              have h3 : e2.1 = p := honly e2 (List.mem_cons_of_mem e he2m) hpre
              apply hnotin
              rw [List.mem_map]
              exact ⟨e2, he2m, by rw [h3, he1]⟩
        unfold snapshotFS at hrest ⊢
        rw [List.filterMap_cons]
        have hpre : p.isPrefixOf e.1 = true := by
          rw [he1]
          exact isPrefixOf_refl p
        rw [hpre, if_pos rfl, hrest, he1, List.drop_length, he2]
      · have hskip : p.isPrefixOf e.1 = false := by
          cases hpre : p.isPrefixOf e.1 with
          | false => rfl
          | true =>
              have h3 : e.1 = p := honly e (List.mem_cons_self e rest) hpre
              rw [h3] at heq
              exact absurd (by simp) heq
        have hc2 : lookupFS rest p = some (Node.file c) := by
          unfold lookupFS at hc ⊢
          rw [List.find?_cons_of_neg rest
            (show ¬ ((fun q : Path × Node => q.1 == p) e = true) from heq)] at hc
          exact hc
        have hres := ih hnd2
          (fun e2 he2 hp => honly e2 (List.mem_cons_of_mem e he2) hp) hc2
        unfold snapshotFS at hres ⊢
        rw [List.filterMap_cons, hskip, if_neg (by simp), hres]

/-- C1 amended: the delete round trip, under the proviso that the backup name
chosen by `record_delete` does not already name a directory backup in storage
(after the eviction collision of C4 it can, and `shutil.copy2` then drops the
file inside that directory, so a later undo restores the old directory instead
of the file — see the counterexample).  If `record_delete path` returned true
(so a backup was created) and the caller then deleted the path through
`FileOperations`, an `undo()` finding the backup still in storage restores the
recorded content at the original source path byte for byte, removes the backup
from storage, and reports success naming the restored item; if the backup is
no longer in storage, `undo()` fails with the "backup not found" message
(popping the entry either way). -/
theorem delete_undo_roundtrip (s : MState) (p : Path) (s1 : MState)
    (hwf : wfFS s.fs) (hmax : 0 < s.max_history)
    (hfresh : ∀ b0, lookupStore s.store (newBackupName s p) = some b0 →
      storeRoot b0 ≠ some Node.dir)
    (hrec : record_delete s p = (s1, true)) :
    (∀ b, lookupStore (after_delete s1 p).store (newBackupName s p) = some b →
       ((undo (after_delete s1 p)).2.1 = true ∧
        (undo (after_delete s1 p)).2.2 = "Undid delete: restored " ++ pname p ∧
        (undo (after_delete s1 p)).1.history = (after_delete s1 p).history.dropLast ∧
        (undo (after_delete s1 p)).1.store =
          removeStore (after_delete s1 p).store (newBackupName s p) ∧
        snapshotFS (undo (after_delete s1 p)).1.fs p = snapshotFS s.fs p)) ∧
    (lookupStore (after_delete s1 p).store (newBackupName s p) = none →
       undo (after_delete s1 p) =
         ({ after_delete s1 p with history := (after_delete s1 p).history.dropLast },
          false, "Cannot undo: backup not found")) := by
  unfold record_delete at hrec
  cases hbc : backup_copy s.fs s.store (newBackupName s p) p with
  | none =>
      rw [hbc] at hrec
      exact absurd (congrArg Prod.snd hrec) (by simp)
  | some st =>
      rw [hbc] at hrec
      have hs1 : s1 = _add_action { s with store := st }
          { action_type := ActionType.delete, source := p, destination := none,
            backup_path := some (newBackupName s p) } := (congrArg Prod.fst hrec).symm
      have hlast : (after_delete s1 p).history.getLast? =
          some { action_type := ActionType.delete, source := p, destination := none,
                 backup_path := some (newBackupName s p) } := by
        show s1.history.getLast? = _
        rw [hs1]
        exact add_action_getLast _ _ hmax
      have hfs1 : s1.fs = s.fs := by
        rw [hs1]
        exact add_action_fs _ _
      have hstore_cases : s1.store = st ∨ ∃ m, s1.store = removeStore st m := by
        rw [hs1]
        exact add_action_store_cases _ _
      have hu : undo (after_delete s1 p) =
          undo_core { after_delete s1 p with
            history := (after_delete s1 p).history.dropLast }
            { action_type := ActionType.delete, source := p, destination := none,
              backup_path := some (newBackupName s p) } := by
        unfold undo
        rw [hlast]
      have hno : lookupFS (delete_file s1.fs p).1 p = none :=
        lookupFS_delete_file_self s1.fs p
      constructor
      · intro b hsome
        have hsome1 : lookupStore s1.store (newBackupName s p) = some b := hsome
        rcases backup_copy_cases s.fs s.store (newBackupName s p) p st hfresh hbc with
          ⟨hdir, hst⟩ | ⟨c, hfile, hst⟩
        · -- directory case
          have hlook_st : lookupStore st (newBackupName s p) =
              some (snapshotFS s.fs p) := by
            rw [hst]
            exact lookupStore_setStore_self _ _ _
          have hb_eq : b = snapshotFS s.fs p := by
            rcases hstore_cases with h1 | ⟨m, h2⟩
            · rw [h1, hlook_st] at hsome1
              exact (Option.some.inj hsome1).symm
            · by_cases hm : newBackupName s p = m
              · rw [h2, ← hm, lookupStore_removeStore_self] at hsome1
                cases hsome1
              · rw [h2, lookupStore_removeStore_ne st _ m hm, hlook_st] at hsome1
                exact (Option.some.inj hsome1).symm
          have hroot : storeRoot b = some Node.dir := by
            rw [hb_eq, storeRoot_snapshotFS, hdir]
          have hisdir : isDirFS s1.fs p = true := by
            unfold isDirFS
            rw [hfs1, hdir]
            rfl
          have hfs2 : (delete_file s1.fs p).1 = removeTreeFS s.fs p := by
            unfold delete_file
            rw [if_pos hisdir, hfs1]
          have hex : existsFS (delete_file s1.fs p).1 p = false := by
            unfold existsFS
            rw [hno]
            rfl
          rw [hu]
          unfold undo_core
          dsimp only [after_delete]
          rw [hsome1]
          dsimp only
          rw [hroot]
          dsimp only
          rw [hex]
          simp only [Bool.false_eq_true, if_false]
          refine ⟨trivial, trivial, trivial, trivial, ?_⟩
          show snapshotFS (graftFS (delete_file s1.fs p).1 p b) p = snapshotFS s.fs p
          rw [hfs2, hb_eq]
          exact snapshotFS_graftFS_self _ _ _ (snapshotFS_removeTreeFS_self s.fs p)
        · -- file case
          have hlook_st : lookupStore st (newBackupName s p) =
              some [(([] : Path), Node.file c)] := by
            rw [hst]
            exact lookupStore_setStore_self _ _ _
          have hb_eq : b = [(([] : Path), Node.file c)] := by
            rcases hstore_cases with h1 | ⟨m, h2⟩
            · rw [h1, hlook_st] at hsome1
              exact (Option.some.inj hsome1).symm
            · by_cases hm : newBackupName s p = m
              · rw [h2, ← hm, lookupStore_removeStore_self] at hsome1
                cases hsome1
              · rw [h2, lookupStore_removeStore_ne st _ m hm, hlook_st] at hsome1
                exact (Option.some.inj hsome1).symm
          have hroot : storeRoot b = some (Node.file c) := by
            rw [hb_eq]
            rfl
          have hisdir : isDirFS s1.fs p = false := by
            unfold isDirFS
            rw [hfs1, hfile]
            rfl
          have hexists : existsFS s1.fs p = true := by
            unfold existsFS
            rw [hfs1, hfile]
            rfl
          have hfs2 : (delete_file s1.fs p).1 = removeEntryFS s.fs p := by
            unfold delete_file
            rw [if_neg (by rw [hisdir]; exact Bool.false_ne_true), if_pos hexists, hfs1]
          have hisdir2 : isDirFS (delete_file s1.fs p).1 p = false := by
            unfold isDirFS
            rw [hno]
            rfl
          -- well-formedness consequences at p
          obtain ⟨epair, hfind, hep2⟩ := Option.map_eq_some'.mp hfile
          have hep1 : epair.1 = p := by
            have := List.find?_some hfind
            simpa using this
          have hmem : epair ∈ s.fs := List.mem_of_find?_eq_some hfind
          have honly : ∀ e2 ∈ s.fs, p.isPrefixOf e2.1 = true → e2.1 = p := by
            intro e2 he2 hp2
            have hnd := hwf.2 epair hmem (by rw [hep2]; exact fun hx => Node.noConfusion hx)
              e2 he2 (by rw [hep1]; exact hp2)
            rw [hnd, hep1]
          have hsnap_all : snapshotFS s.fs p = [(([] : Path), Node.file c)] :=
            snapshotFS_of_file s.fs p c hwf.1 honly hfile
          have hsnap_rm : snapshotFS (removeEntryFS s.fs p) p = [] := by
            apply snapshotFS_eq_nil
            intro e2 he2
            obtain ⟨he2m, he2ne⟩ := List.mem_filter.mp he2
            cases hp2 : p.isPrefixOf e2.1 with
            | false => rfl
            | true =>
                exfalso
                have := honly e2 he2m hp2
                rw [this] at he2ne
                simp at he2ne
          rw [hu]
          unfold undo_core
          dsimp only [after_delete]
          rw [hsome1]
          dsimp only
          rw [hroot]
          dsimp only
          rw [hisdir2]
          simp only [Bool.false_eq_true, if_false]
          refine ⟨trivial, trivial, trivial, trivial, ?_⟩
          show snapshotFS (setFS (delete_file s1.fs p).1 p (Node.file c)) p =
            snapshotFS s.fs p
          rw [hfs2]
          unfold setFS
          rw [removeEntryFS_idem, snapshotFS_cons_self, hsnap_rm, hsnap_all]
      · intro hnone
        have hnone1 : lookupStore s1.store (newBackupName s p) = none := hnone
        rw [hu]
        unfold undo_core
        dsimp only [after_delete]
        rw [hnone1]

theorem delete_undo_roundtrip_witness :
    (undo (after_delete w1s1 (["a"]))).2.1 = true ∧
    (undo (after_delete w1s1 (["a"]))).2.2 = "Undid delete: restored " ++ pname (["a"]) ∧
    (undo (after_delete w1s1 (["a"]))).1.history =
      (after_delete w1s1 (["a"])).history.dropLast ∧
    (undo (after_delete w1s1 (["a"]))).1.store =
      removeStore (after_delete w1s1 (["a"])).store
        (newBackupName (mkMState 2 fsFileA) (["a"])) ∧
    snapshotFS (undo (after_delete w1s1 (["a"]))).1.fs (["a"]) =
      snapshotFS (mkMState 2 fsFileA).fs (["a"]) :=
  (delete_undo_roundtrip (mkMState 2 fsFileA) (["a"]) w1s1 (by decide) (by decide)
      (fun b0 hb0 => Option.noConfusion hb0) rfl).1
    [(([] : Path), Node.file ("contents of a"))] rfl

/-- C1 counterexample: all of the claim hypotheses hold — the filesystem is
well formed, `record_delete` of the file a returns true, the caller deletes
the file, the Delete entry is at the tail of history, and the backup name is
present in storage — and `undo()` reports success, yet what it restores at
the source path is the old *directory* backup (with the deleted file stuffed
inside it as a/a), not the deleted file content: `shutil.copy2` into the
colliding directory backup made the recording succeed while
`backup_path.is_dir()` later routes the restore through `copytree`. -/
theorem delete_undo_restores_wrong_content_cex :
    wfFS c1State.fs ∧
    (0 < c1State.max_history) ∧
    ((record_delete c1State (["a"])).2 = true) ∧
    ((after_delete c1s1 (["a"])).history.getLast? = some
      { action_type := ActionType.delete, source := ["a"], destination := none,
        backup_path := some (newBackupName c1State (["a"])) }) ∧
    ((lookupStore (after_delete c1s1 (["a"])).store
        (newBackupName c1State (["a"]))).isSome = true) ∧
    ((undo (after_delete c1s1 (["a"]))).2.1 = true) ∧
    ((undo (after_delete c1s1 (["a"]))).2.2 =
      "Undid delete: restored " ++ pname (["a"])) ∧
    (lookupFS c1State.fs (["a"]) = some (Node.file ("NEW"))) ∧
    (lookupFS (undo (after_delete c1s1 (["a"]))).1.fs (["a"]) = some Node.dir) ∧
    ¬ (snapshotFS (undo (after_delete c1s1 (["a"]))).1.fs (["a"]) =
        snapshotFS c1State.fs (["a"])) := by
  refine ⟨by decide, by decide, rfl, rfl, rfl, rfl, rfl, rfl, rfl, by decide⟩

end MoCommander
